import Mathlib

/-!
Verification development for the document synchronization and versioning
layer of the Zyga dashboard server (`server/index.js`).

Text is modelled as `List Char` (a faithful character-sequence view of
JavaScript strings).  Filesystem state is modelled explicitly as the
contents of the documents directory, the `documents-index.json` manifest
and the `.versions` snapshot tree; every route of the documents API is
embedded as a pure state transformer that additionally reports the
ordered list of filesystem write events it performs.
-/

set_option maxRecDepth 20000

abbrev Chars := List Char

/-- Convert a Lean string literal into the character-list view. -/
def toL (s : String) : Chars := s.data

/-- Whitespace test used for `String.prototype.trim` and the `\s` regex
class (the main JavaScript whitespace characters; the exotic Unicode
space variants never occur in this code base). -/
def isWsChar (c : Char) : Bool :=
  c = ' ' || c = '\t' || c = '\n' || c = '\r' || c = '\x0b' || c = '\x0c'

/-- JavaScript `String.prototype.trim`: drop whitespace from both ends. -/
def trimL (s : Chars) : Chars :=
  ((s.dropWhile isWsChar).reverse.dropWhile isWsChar).reverse

/-- Split a character list on a separator character (JavaScript
`String.prototype.split` with a single-character separator: the result is
never empty, and separators at the ends produce empty pieces). -/
def splitOnChar (sep : Char) : Chars → List Chars
  | [] => [[]]
  | c :: rest =>
    if c = sep then [] :: splitOnChar sep rest
    else
      match splitOnChar sep rest with
      | [] => [[c]]
      | s :: ss => (c :: s) :: ss

/-- Join pieces with a separator character (JavaScript `Array.join`). -/
def joinOn (sep : Char) : List Chars → Chars
  | [] => []
  | [l] => l
  | l :: ls => l ++ sep :: joinOn sep ls

/-- JavaScript `String.prototype.replace` with a plain-string pattern:
replace only the first occurrence (e.g. `filename.replace('.md', '')`). -/
def replaceOnce (pat rep : Chars) : Chars → Chars
  | [] => []
  | c :: rest =>
    if pat.isPrefixOf (c :: rest) then rep ++ (c :: rest).drop pat.length
    else c :: replaceOnce pat rep rest

/- ### Frontmatter codec (`parseFrontmatter` / `stripFrontmatter` /
`buildFrontmatter`, server/index.js lines 64-109) -/

/-- The metadata record carried by a document's frontmatter header.  The
source manipulates a plain object; only the four keys below are ever read
or re-emitted, so the record keeps exactly those.  An empty list models a
missing/empty (falsy) field. -/
structure Meta where
  title : Chars
  emoji : Chars
  category : Chars
  last_edited_by : Chars
deriving DecidableEq, Repr

def emptyMeta : Meta := ⟨[], [], [], []⟩

/-- Match `\r?\n` at the front, returning the remainder (the `\r?` is
effectively greedy: when the first character is `\r` the `\n` must follow
it, since `\r` itself can never satisfy the mandatory `\n`). -/
def matchEnd : Chars → Option Chars
  | [] => none
  | c :: r =>
    if c = '\n' then some r
    else if c = '\r' then
      match r with
      | [] => none
      | d :: r2 => if d = '\n' then some r2 else none
    else none

/-- Match the closing-delimiter part `\r?\n---\r?\n` of the frontmatter
regular expression `^---\r?\n([\s\S]*?)\r?\n---\r?\n` at the front. -/
def matchClose (s : Chars) : Option Chars :=
  match matchEnd s with
  | none => none
  | some r =>
    match r with
    | d1 :: d2 :: d3 :: r2 =>
      if d1 = '-' then if d2 = '-' then if d3 = '-' then matchEnd r2 else none
      else none else none
    | _ => none

/-- The non-greedy search of the frontmatter regular expression: find the
earliest split `s = capture ++ close ++ rest` where `close` matches
`\r?\n---\r?\n`, returning `(capture, rest)`. -/
def findClose : Chars → Option (Chars × Chars)
  | [] => none
  | c :: rest =>
    match matchClose (c :: rest) with
    | some r => some ([], r)
    | none => (findClose rest).map fun p => (c :: p.1, p.2)

/-- Strip surrounding quotes from a frontmatter value
(`val.slice(1, -1)` when the value starts and ends with the same kind of
quote). -/
def unquote (val : Chars) : Chars :=
  if val.head? = some '"' && val.getLast? = some '"' then (val.drop 1).dropLast
  else if val.head? = some '\'' && val.getLast? = some '\'' then (val.drop 1).dropLast
  else val

/-- Find the first `':'`, returning the (possibly empty) part before it
and the part after it (`line.indexOf(':')`). -/
def breakColon : Chars → Option (Chars × Chars)
  | [] => none
  | c :: r =>
    if c = ':' then some ([], r)
    else (breakColon r).map fun p => (c :: p.1, p.2)

/-- Process one `key: value` line of a frontmatter header: only lines
whose first `':'` has a nonempty part before it (`idx > 0`) assign a key;
unknown keys are retained by the source in a dynamic object but never
read nor re-emitted, so the model drops them. -/
def applyMetaLine (m : Meta) (line : Chars) : Meta :=
  match breakColon line with
  | none => m
  | some (k, v) =>
    if k = [] then m
    else
      let key := trimL k
      let val := unquote (trimL v)
      if key = toL "title" then { m with title := val }
      else if key = toL "emoji" then { m with emoji := val }
      else if key = toL "category" then { m with category := val }
      else if key = toL "last_edited_by" then { m with last_edited_by := val }
      else m

def metaOfLines (lines : List Chars) : Meta :=
  lines.foldl applyMetaLine emptyMeta

/-- `parseFrontmatter(raw)`: match
`FRONTMATTER_RE = /^---\r?\n([\s\S]*?)\r?\n---\r?\n/` against the start of
`raw`; on a match, build the metadata record from the captured lines and
return the remainder as the content; otherwise return empty metadata and
`raw` unchanged. -/
def parseFrontmatter (raw : Chars) : Meta × Chars :=
  match raw with
  | '-' :: '-' :: '-' :: r =>
    match matchEnd r with
    | some r2 =>
      match findClose r2 with
      | some (inner, rest) => (metaOfLines (splitOnChar '\n' inner), rest)
      | none => (emptyMeta, raw)
    | none => (emptyMeta, raw)
  | _ => (emptyMeta, raw)

/-- `stripFrontmatter(raw)`: the content half of `parseFrontmatter`. -/
def stripFrontmatter (raw : Chars) : Chars :=
  (parseFrontmatter raw).2

/-- The lines `key: "value"` emitted by `buildFrontmatter` for the truthy
fields, in source order. -/
def fieldLines (m : Meta) : List Chars :=
  (if m.title ≠ [] then [toL "title: \"" ++ m.title ++ ['"']] else [])
    ++ (if m.emoji ≠ [] then [toL "emoji: \"" ++ m.emoji ++ ['"']] else [])
    ++ (if m.category ≠ [] then [toL "category: \"" ++ m.category ++ ['"']] else [])
    ++ (if m.last_edited_by ≠ [] then
          [toL "last_edited_by: \"" ++ m.last_edited_by ++ ['"']] else [])

/-- `buildFrontmatter(meta)`: `['---', ...lines, '---'].join('\n') + '\n'`. -/
def buildFrontmatter (m : Meta) : Chars :=
  joinOn '\n' ([toL "---"] ++ fieldLines m ++ [toL "---"]) ++ ['\n']

example : buildFrontmatter emptyMeta ++ toL "x" = toL "---\n---\nx" := by decide

example :
    parseFrontmatter (toL "---\ntitle: \"T\"\n---\nbody")
      = ({ emptyMeta with title := toL "T" }, toL "body") := by decide

example : stripFrontmatter (toL "---\n---\nx") = toL "---\n---\nx" := by decide

example : stripFrontmatter (toL "no header") = toL "no header" := by decide

/- ### Filesystem state model -/

/-- One entry of the `documents-index.json` manifest. -/
structure IndexEntry where
  filename : Chars
  title : Chars
  emoji : Chars
  category : Chars
  created_at : Chars
  updated_at : Chars
deriving DecidableEq, Repr

/-- Association-list lookup by filename key (first match wins, matching
the semantics of a directory: keys are unique on a real filesystem). -/
def lookupA {α : Type} : List (Chars × α) → Chars → Option α
  | [], _ => none
  | (k, v) :: r, key => if k = key then some v else lookupA r key

/-- Association-list update: overwrite the value at an existing key
(`fs.writeFile` on an existing path) or append a new entry (creating the
file). -/
def insertA {α : Type} : List (Chars × α) → Chars → α → List (Chars × α)
  | [], key, v => [(key, v)]
  | (k, w) :: r, key, v =>
    if k = key then (key, v) :: r else (k, w) :: insertA r key v

/-- The state of the managed data on disk:
* `files`   — the `.md` document files (and any other plain files)
  directly inside the documents directory, as `filename ↦ raw content`;
  the manifest and the `.versions` tree are modelled separately below;
* `index`   — the parsed `documents-index.json` manifest, `none` when the
  file does not exist;
* `versions` — the `.versions/<document>/<ts>.md` snapshot tree, as
  `document filename ↦ (snapshot filename ↦ snapshot content)`. -/
structure FState where
  files : List (Chars × Chars)
  index : Option (List IndexEntry)
  versions : List (Chars × List (Chars × Chars))
deriving DecidableEq, Repr

/-- The snapshot directory listing of one document (`readdir` of
`.versions/<doc>`; a missing directory reads as the empty listing, which
is what the route's `catch { /* no versions yet */ }` produces). -/
def verList (st : FState) (doc : Chars) : List (Chars × Chars) :=
  (lookupA st.versions doc).getD []

/-- Write one snapshot file `.versions/<doc>/<vf>` (creating the
per-document directory if needed). -/
def insertVersion (vers : List (Chars × List (Chars × Chars)))
    (doc vf content : Chars) : List (Chars × List (Chars × Chars)) :=
  insertA vers doc (insertA ((lookupA vers doc).getD []) vf content)

/-- Error taxonomy of the service layer (the HTTP layer renders
`invalidArgument` as 400/403, `notFound` as 404 and `ioFailure` as 500). -/
inductive Err where
  | invalidArgument
  | notFound
  | ioFailure
deriving DecidableEq, Repr

/-- Observable filesystem write events, in the order the route performs
them. -/
inductive Ev where
  | writeVersion (doc vf content : Chars)
  | writeDoc (doc content : Chars)
  | writeIndex
deriving DecidableEq, Repr

instance instDecEqExcept {ε α : Type} [DecidableEq ε] [DecidableEq α] :
    DecidableEq (Except ε α) := fun x y =>
  match x, y with
  | .ok a, .ok b =>
    if h : a = b then .isTrue (by rw [h]) else .isFalse fun hc => h (by injection hc)
  | .error a, .error b =>
    if h : a = b then .isTrue (by rw [h]) else .isFalse fun hc => h (by injection hc)
  | .ok _, .error _ => .isFalse fun hc => Except.noConfusion hc
  | .error _, .ok _ => .isFalse fun hc => Except.noConfusion hc

/-- Result of a state-transforming route: the new state, the ordered
write-event trace, and the response. -/
structure OpResult (α : Type) where
  st : FState
  events : List Ev
  out : Except Err α
deriving DecidableEq

/-- The `.md` extension suffix checked by `filename.endsWith('.md')`. -/
def mdExt : Chars := toL ".md"

/- ### Document routes (server/index.js, documents API) -/

/-- `GET /api/documents/:filename` (lines 482-502): reject filenames not
ending in `.md`, read the file, strip the frontmatter, return the body.
A missing file is NotFound.  (The path-escape guard of lines 489-491 is
modelled at the path level by `docTargetPath` below; state-level routes
describe the behaviour on in-directory filenames.) -/
def getDocument (st : FState) (filename : Chars) : Except Err Chars :=
  if ¬ mdExt.isSuffixOf filename then .error .invalidArgument
  else
    match lookupA st.files filename with
    | some raw => .ok (stripFrontmatter raw)
    | none => .error .notFound

/-- The index-update step shared by `PUT` and restore (lines 541-548 and
634-641): re-read the manifest, and only when an entry for the filename
exists, stamp its `updated_at` and write the manifest back. -/
def touchIndex (st : FState) (filename now : Chars) : FState × List Ev :=
  let docs := st.index.getD []
  if docs.any (fun d => d.filename = filename) then
    let docs' := docs.map fun d =>
      if d.filename = filename then { d with updated_at := now } else d
    ({ st with index := some docs' }, [.writeIndex])
  else (st, [])

/-- `PUT /api/documents/:filename` (lines 505-554): the write path.
`ts` is the snapshot timestamp `new Date().toISOString().replace(/[:.]/g,'-')`
rendered at the instant of the call, `now` the ISO timestamp used for the
index update.  If the file already exists, its full raw content is first
written as the snapshot `.versions/<filename>/<ts>.md`, then the prior
frontmatter (with `last_edited_by` replaced) is prepended to the new body
and the file overwritten; otherwise a fresh header is built.  Finally the
index entry's `updated_at` is stamped when the entry exists. -/
def putDocument (st : FState) (filename newContent editedBy ts now : Chars) :
    OpResult Unit :=
  if ¬ mdExt.isSuffixOf filename then ⟨st, [], .error .invalidArgument⟩
  else
    let by' := if editedBy = [] then toL "OpenClaw" else editedBy
    match lookupA st.files filename with
    | some existingRaw =>
      let vf := ts ++ mdExt
      let st1 := { st with versions := insertVersion st.versions filename vf existingRaw }
      let meta := (parseFrontmatter existingRaw).1
      let final := buildFrontmatter { meta with last_edited_by := by' } ++ newContent
      let st2 := { st1 with files := insertA st1.files filename final }
      let t := touchIndex st2 filename now
      ⟨t.1, .writeVersion filename vf existingRaw :: .writeDoc filename final :: t.2,
        .ok ()⟩
    | none =>
      let final := buildFrontmatter { emptyMeta with last_edited_by := by' } ++ newContent
      let st2 := { st with files := insertA st.files filename final }
      let t := touchIndex st2 filename now
      ⟨t.1, .writeDoc filename final :: t.2, .ok ()⟩

/-- Decode a snapshot filename back into an ISO timestamp (lines 580-586):
drop the first `.md` occurrence, then reinterpret dashes by offset —
offsets ≤ 9 stay date dashes, 13 and 16 become `:`, 19 becomes `.`. -/
def decodeDashes (i : Nat) : Chars → Chars
  | [] => []
  | c :: r =>
    (if c = '-' then
      if i ≤ 9 then '-'
      else if i = 13 ∨ i = 16 then ':'
      else if i = 19 then '.'
      else '-'
    else c) :: decodeDashes (i + 1) r

def decodeTs (f : Chars) : Chars :=
  decodeDashes 0 (replaceOnce mdExt [] f)

/-- Collapse every maximal whitespace run into one space
(`.replace(/\s+/g, ' ')`). -/
def collapseWs : Chars → Chars
  | [] => []
  | c :: r =>
    if isWsChar c then ' ' :: collapseWs (r.dropWhile isWsChar)
    else c :: collapseWs r
termination_by l => l.length
decreasing_by
  · exact Nat.lt_succ_of_le (List.dropWhile_sublist _).length_le
  · exact Nat.lt_succ_self _

/-- One descriptor of the version listing (lines 568-588). -/
structure VersionDescriptor where
  timestamp : Chars
  size : Nat
  file : Chars
  author : Chars
  preview : Chars
deriving DecidableEq, Repr

/-- Build the descriptor of one snapshot file: byte size (modelled as
character count), author from the snapshotted frontmatter with the
`'OpenClaw'` fallback, 100-character whitespace-collapsed preview with an
ellipsis when truncated, and the decoded timestamp. -/
def mkDescriptor (p : Chars × Chars) : VersionDescriptor :=
  let meta := (parseFrontmatter p.2).1
  let stripped := trimL (stripFrontmatter p.2)
  { timestamp := decodeTs p.1
    size := p.2.length
    file := p.1
    author := if meta.last_edited_by ≠ [] then meta.last_edited_by else toL "OpenClaw"
    preview := collapseWs (stripped.take 100)
      ++ (if 100 < stripped.length then toL "..." else []) }

/-- Strict lexicographic (code-unit) order on character lists, modelling
the comparison underlying `b.timestamp.localeCompare(a.timestamp)` on the
uniform ASCII timestamp strings produced by `decodeTs`. -/
def lexLt : Chars → Chars → Bool
  | [], [] => false
  | [], _ :: _ => true
  | _ :: _, [] => false
  | a :: as, b :: bs => if a < b then true else if b < a then false else lexLt as bs

/-- Stable insertion into a descending-sorted descriptor list: the new
element goes before the first strictly older entry. -/
def insertDesc (x : VersionDescriptor) : List VersionDescriptor → List VersionDescriptor
  | [] => [x]
  | h :: t => if lexLt h.timestamp x.timestamp then x :: h :: t else h :: insertDesc x t

/-- The stable newest-first sort
`versions.sort((a, b) => b.timestamp.localeCompare(a.timestamp))`. -/
def sortDesc (l : List VersionDescriptor) : List VersionDescriptor :=
  l.foldl (fun acc x => insertDesc x acc) []

/-- `GET /api/documents/:filename/versions` (lines 559-595): list the
snapshot directory (missing directory means no versions), keep the `.md`
files, build a descriptor for each, and sort newest first. -/
def listVersions (st : FState) (filename : Chars) : List VersionDescriptor :=
  sortDesc (((verList st filename).filter fun p => mdExt.isSuffixOf p.1).map mkDescriptor)

/-- `GET /api/documents/:filename/versions/:versionFile` (lines 598-613):
read one snapshot, strip its frontmatter, return the body; any read
failure (missing document scope or missing snapshot) is a 404. -/
def readVersion (st : FState) (filename versionFile : Chars) : Except Err Chars :=
  match lookupA (verList st filename) versionFile with
  | some raw => .ok (stripFrontmatter raw)
  | none => .error .notFound

/-- `POST /api/documents/:filename/versions/:versionFile/restore`
(lines 616-650): read the current content (failure aborts everything),
snapshot it under the fresh timestamp `ts`, then read the requested
snapshot (failure now leaves the spurious snapshot behind, a 500),
overwrite the document with it, stamp the index, and return the restored
body (stripped). -/
def restoreVersion (st : FState) (filename versionFile ts now : Chars) :
    OpResult Chars :=
  match lookupA st.files filename with
  | none => ⟨st, [], .error .ioFailure⟩
  | some currentRaw =>
    let vf := ts ++ mdExt
    let st1 := { st with versions := insertVersion st.versions filename vf currentRaw }
    match lookupA (verList st1 filename) versionFile with
    | none => ⟨st1, [.writeVersion filename vf currentRaw], .error .ioFailure⟩
    | some vraw =>
      let st2 := { st1 with files := insertA st1.files filename vraw }
      let t := touchIndex st2 filename now
      ⟨t.1, .writeVersion filename vf currentRaw :: .writeDoc filename vraw :: t.2,
        .ok (stripFrontmatter vraw)⟩

/-- `PATCH /api/documents/:filename/meta` (lines 741-763): patch
title/emoji/category of the index entry (absent request fields leave the
field alone), stamp `updated_at`, write the manifest.  The document file
itself is never touched. -/
def patchDocumentMeta (st : FState) (filename : Chars)
    (title emoji category : Option Chars) (now : Chars) : OpResult IndexEntry :=
  if ¬ mdExt.isSuffixOf filename then ⟨st, [], .error .invalidArgument⟩
  else
    let docs := st.index.getD []
    match docs.find? (fun d => d.filename = filename) with
    | none => ⟨st, [], .error .notFound⟩
    | some e =>
      let e' : IndexEntry :=
        { e with
          title := title.getD e.title
          emoji := emoji.getD e.emoji
          category := category.getD e.category
          updated_at := now }
      let docs' := docs.map fun d => if d.filename = filename then e' else d
      ⟨{ st with index := some docs' }, [.writeIndex], .ok e'⟩

/- ### Sync engine (`syncDocumentsIndex`, server/index.js lines 381-460) -/

/-- The default document glyph used for discovered files. -/
def defaultEmoji : Chars := toL "📄"

/-- Character lowercasing used for the category keyword sniffing
(`title.toLowerCase()`; ASCII suffices for the keywords involved). -/
def lowerL (s : Chars) : Chars := s.map Char.toLower

/-- JavaScript `String.prototype.includes`: substring test. -/
def includesL (s pat : Chars) : Bool :=
  match s with
  | [] => pat.isPrefixOf []
  | _ :: r => pat.isPrefixOf s || includesL r pat

/-- Synthesize the index entry for a file found on disk with no index
entry (the addition phase, lines 403-443).  `raw?` is the result of
reading the file; `none` models the swallowed read error, which falls
back to the filename-derived defaults. -/
def inferEntry (filename : Chars) (raw? : Option Chars) (now : Chars) : IndexEntry :=
  let title0 := (replaceOnce mdExt [] filename).map fun c => if c = '-' then ' ' else c
  match raw? with
  | none =>
    { filename := filename, title := title0, emoji := defaultEmoji
      category := toL "Guide", created_at := now, updated_at := now }
  | some raw =>
    let (meta, content) := parseFrontmatter raw
    let title :=
      if meta.title ≠ [] then meta.title
      else
        let firstLine := ((splitOnChar '\n' content).find? fun l => trimL l ≠ []).getD []
        if (toL "# ").isPrefixOf (trimL firstLine) then trimL ((trimL firstLine).drop 2)
        else title0
    let emoji := if meta.emoji ≠ [] then meta.emoji else defaultEmoji
    let category :=
      if meta.category ≠ [] then meta.category
      else
        let lowerTitle := lowerL title
        if includesL lowerTitle (toL "security") ∨ includesL lowerTitle (toL "vulnerability") then
          toL "Security"
        else if includesL lowerTitle (toL "pulse") ∨ includesL lowerTitle (toL "daily") then
          toL "AI Pulse"
        else if includesL lowerTitle (toL "report") then toL "Report"
        else toL "Guide"
    { filename := filename, title := title, emoji := emoji
      category := category, created_at := now, updated_at := now }

/-- The `.md` files currently on disk in the documents directory
(`fs.readdir` filtered by `f.endsWith('.md')`; the manifest file and the
`.versions` directory do not carry the extension and are filtered out). -/
def diskMd (st : FState) : List Chars :=
  (st.files.map (·.1)).filter fun f => mdExt.isSuffixOf f

/-- Result of one reconciliation run. -/
structure SyncResult where
  st : FState
  docs : List IndexEntry
  events : List Ev
deriving DecidableEq

/-- The set of filenames carried by the loaded manifest
(`new Set(index.documents.map((d) => d.filename))`, computed before the
addition phase). -/
def syncIndexed (st : FState) : List Chars :=
  (st.index.getD []).map (·.filename)

/-- One step of the addition loop: an already-indexed disk file leaves
the list alone, an unindexed one gets a synthesized entry prepended
(`index.documents.unshift(...)`). -/
def syncAddStep (st : FState) (now : Chars) (indexed : List Chars)
    (acc : List IndexEntry) (f : Chars) : List IndexEntry :=
  if f ∈ indexed then acc else inferEntry f (lookupA st.files f) now :: acc

/-- The manifest after the addition phase. -/
def syncDocs1 (st : FState) (now : Chars) : List IndexEntry :=
  (diskMd st).foldl (syncAddStep st now (syncIndexed st)) (st.index.getD [])

/-- The manifest after the removal phase
(`index.documents.filter((d) => diskFilesSet.has(d.filename))`). -/
def syncDocs2 (st : FState) (now : Chars) : List IndexEntry :=
  (syncDocs1 st now).filter fun e => decide (e.filename ∈ diskMd st)

/-- `syncDocumentsIndex()` (lines 381-460): load the manifest (missing
file means empty), scan the disk for `.md` files, prepend a synthesized
entry for every unindexed file (`unshift`, checked against the original
indexed set), drop every entry whose file is gone, and persist the
manifest only when either phase changed something (`hasChanges` is set by
the addition loop and by a length comparison after the removal filter). -/
def syncDocumentsIndex (st : FState) (now : Chars) : SyncResult :=
  if (∃ f ∈ diskMd st, f ∉ syncIndexed st)
      ∨ (syncDocs2 st now).length ≠ (syncDocs1 st now).length then
    ⟨{ st with index := some (syncDocs2 st now) }, syncDocs2 st now, [.writeIndex]⟩
  else ⟨st, syncDocs2 st now, []⟩

/- ### Path resolution model (`path.join` / `path.resolve` and the
sandbox guards of the per-document routes) -/

/-- Normalize a `'/'`-separated segment sequence against a stack of
already-resolved segments: empty segments and `.` vanish, `..` pops (a
pop past the root of an absolute path stays at the root), everything else
is pushed.  This is Node's normalization of an absolute path. -/
def normStack (stack : List Chars) : List Chars → List Chars
  | [] => stack
  | seg :: rest =>
    if seg = [] ∨ seg = ['.'] then normStack stack rest
    else if seg = ['.', '.'] then normStack stack.dropLast rest
    else normStack (stack ++ [seg]) rest

/-- Render resolved segments back into an absolute path string. -/
def renderAbs (segs : List Chars) : Chars := '/' :: joinOn '/' segs

/-- Node's `path.resolve` on an absolute path string. -/
def resolveAbs (p : Chars) : Chars := renderAbs (normStack [] (splitOnChar '/' p))

/-- The absolute documents directory (`DOCUMENTS_DIR`).  The concrete
prefix depends on where the project is installed; a representative value
is fixed, which loses no generality because every guard below only
concatenates and compares it. -/
def documentsDir : Chars := toL "/app/data/documents"

/-- The absolute path of the `documents-index.json` manifest
(`DOCUMENTS_INDEX_PATH`). -/
def documentsIndexPath : Chars := documentsDir ++ toL "/documents-index.json"

/-- `path.resolve(path.join(DOCUMENTS_DIR, filename))`: the target path a
per-document route resolves for a request filename. -/
def resolveInDocs (filename : Chars) : Chars :=
  resolveAbs (documentsDir ++ '/' :: filename)

/-- Whether a resolved absolute path really lies inside the documents
directory (the directory itself or below it). -/
def insideDocsDir (p : Chars) : Bool :=
  p = documentsDir || (documentsDir ++ ['/']).isPrefixOf p

/-- The filesystem path a per-document route (`GET`/`PUT`/`DELETE`
`/api/documents/:filename`, `POST .../duplicate`) accesses for a request
filename, or `none` when the request is rejected before any filesystem
access: all four handlers first require `filename.endsWith('.md')` (400)
and then require the resolved path to pass
`safePath.startsWith(path.resolve(DOCUMENTS_DIR))` (403). -/
def docTargetPath (filename : Chars) : Option Chars :=
  if ¬ mdExt.isSuffixOf filename then none
  else if documentsDir.isPrefixOf (resolveInDocs filename) then some (resolveInDocs filename)
  else none

example : resolveInDocs (toL "a.md") = toL "/app/data/documents/a.md" := by decide

example : docTargetPath (toL "../../etc/passwd") = none := by decide

example :
    docTargetPath (toL "../documents-evil/x.md")
      = some (toL "/app/data/documents-evil/x.md") := by decide

/-- A snapshot-creating operation on one document: a content write
(`PUT`) or a restore (`POST .../restore`); both snapshot the current
content keyed by the instant's rendered timestamp before overwriting. -/
inductive SnapOp where
  | write (newContent editedBy : Chars)
  | restore (versionFile : Chars)

/-- Run one snapshot-creating operation at an instant whose rendered
timestamp is `ts`, returning the resulting state. -/
def runSnapOp (st : FState) (doc : Chars) (op : SnapOp) (ts now : Chars) : FState :=
  match op with
  | .write c e => (putDocument st doc c e ts now).st
  | .restore vf => (restoreVersion st doc vf ts now).st

/- ### Spec-side definitions (used to compare claims' wording against the
embedded code) -/

/-- Modelled from the words of claim C7 (spec §4.4 step 2b): the title of
a discovered file is "the frontmatter title if present; else the first
top-level heading line found in the body; else the filename with its
extension removed and separators replaced by spaces". -/
def claimTitleRule (filename raw : Chars) : Chars :=
  let (meta, content) := parseFrontmatter raw
  if meta.title ≠ [] then meta.title
  else
    match (splitOnChar '\n' content).find? (fun l => (toL "# ").isPrefixOf (trimL l)) with
    | some l => trimL ((trimL l).drop 2)
    | none =>
      (replaceOnce mdExt [] filename).map fun c => if c = '-' then ' ' else c

/-- The title rule the code actually implements (the amended claim C7):
the frontmatter title if present; else, when the first non-blank line of
the body is a top-level heading (`# `), that heading's text; else the
filename with its first `.md` occurrence removed and dashes replaced by
spaces. -/
def amendedTitleRule (filename raw : Chars) : Chars :=
  let (meta, content) := parseFrontmatter raw
  if meta.title ≠ [] then meta.title
  else
    let firstLine := ((splitOnChar '\n' content).find? fun l => trimL l ≠ []).getD []
    if (toL "# ").isPrefixOf (trimL firstLine) then trimL ((trimL firstLine).drop 2)
    else (replaceOnce mdExt [] filename).map fun c => if c = '-' then ' ' else c

example :
    amendedTitleRule (toL "doc.md") (toL "intro\n# Head\n") = toL "doc" := by decide

example :
    claimTitleRule (toL "doc.md") (toL "intro\n# Head\n") = toL "Head" := by decide

/- ### Helper lemmas -/

theorem lookupA_insertA_self {α : Type} (l : List (Chars × α)) (k : Chars) (v : α) :
    lookupA (insertA l k v) k = some v := by
  induction l with
  | nil => simp [insertA, lookupA]
  | cons p r ih =>
    obtain ⟨k', w⟩ := p
    by_cases h : k' = k <;> simp [insertA, lookupA, h, ih]

theorem lookupA_insertA_ne {α : Type} (l : List (Chars × α)) (k k' : Chars) (v : α)
    (h : k ≠ k') : lookupA (insertA l k v) k' = lookupA l k' := by
  induction l with
  | nil => simp [insertA, lookupA, h]
  | cons p r ih =>
    obtain ⟨k₀, w⟩ := p
    by_cases h0 : k₀ = k
    · subst h0; simp [insertA, lookupA, h]
    · simp [insertA, lookupA, h0, ih]

theorem insertA_of_fresh {α : Type} (l : List (Chars × α)) (k : Chars) (v : α)
    (h : lookupA l k = none) : insertA l k v = l ++ [(k, v)] := by
  induction l with
  | nil => simp [insertA]
  | cons p r ih =>
    obtain ⟨k₀, w⟩ := p
    by_cases h0 : k₀ = k
    · subst h0; simp [lookupA] at h
    · simp [insertA, h0]
      exact ih (by simpa [lookupA, h0] using h)

theorem mem_keys_of_lookupA {α : Type} {l : List (Chars × α)} {k : Chars} {v : α}
    (h : lookupA l k = some v) : k ∈ l.map (·.1) := by
  induction l with
  | nil => exact absurd h (by simp [lookupA])
  | cons p r ih =>
    obtain ⟨k₀, w⟩ := p
    simp only [List.map_cons]
    by_cases h0 : k₀ = k
    · subst h0; exact List.mem_cons_self _ _
    · have h' : lookupA r k = some v := by
        have : lookupA ((k₀, w) :: r) k = lookupA r k := by
          simp [lookupA, h0]
        rwa [this] at h
      exact List.mem_cons_of_mem _ (ih h')

/-- `getDocument` reads only the `files` component of the state. -/
theorem getDocument_eq_of_files_eq {st₁ st₂ : FState} (h : st₁.files = st₂.files)
    (filename : Chars) : getDocument st₁ filename = getDocument st₂ filename := by
  simp [getDocument, h]

/- ### Claim C9 -/

/-- Claim C9: `updateMeta` (PATCH `/api/documents/:filename/meta`) patches
the index entry only and leaves the document file on disk byte-for-byte
unchanged: for every state, filename, field selection and timestamp, the
files component is untouched, no document write event is emitted, and
`getContent` afterwards returns exactly what it returned before — for
every document. -/
theorem patchMeta_preserves_content (st : FState) (filename : Chars)
    (title emoji category : Option Chars) (now : Chars) :
    (patchDocumentMeta st filename title emoji category now).st.files = st.files ∧
    (∀ doc, getDocument (patchDocumentMeta st filename title emoji category now).st doc
      = getDocument st doc) ∧
    (∀ d c, Ev.writeDoc d c ∉ (patchDocumentMeta st filename title emoji category now).events) := by
  unfold patchDocumentMeta
  split
  · exact ⟨rfl, fun _ => rfl, fun d c => by simp⟩
  · cases hfind : List.find? (fun d => decide (d.filename = filename)) (st.index.getD []) with
    | none => simp [hfind, getDocument]
    | some e => simp [hfind, getDocument]

/- ### Claim C4 -/

/-- Counterexample to claim C4 as stated: `readVersion` does not return
the snapshot's exact stored bytes — on a snapshot that carries a
frontmatter header it returns only the body, with the header stripped
(line 607: `const content = stripFrontmatter(raw)`). -/
theorem readVersion_strips_header :
    readVersion
        ⟨[], none,
          [(toL "doc.md", [(toL "v.md", toL "---\ntitle: \"T\"\n---\nbody")])]⟩
        (toL "doc.md") (toL "v.md")
      = .ok (toL "body")
    ∧ toL "body" ≠ toL "---\ntitle: \"T\"\n---\nbody" := by
  constructor
  · rfl
  · decide

/-- Claim C4 (amended): `readVersion(id, snapshotId)` returns the
snapshot's stored body with any frontmatter header stripped, and fails
with NotFound when the snapshot or the document's version scope does not
exist. -/
theorem readVersion_body_or_notFound (st : FState) (filename versionFile : Chars) :
    (∃ raw, lookupA (verList st filename) versionFile = some raw ∧
        readVersion st filename versionFile = .ok (stripFrontmatter raw)) ∨
    (lookupA (verList st filename) versionFile = none ∧
        readVersion st filename versionFile = .error .notFound) := by
  cases h : lookupA (verList st filename) versionFile with
  | some raw => exact Or.inl ⟨raw, rfl, by simp [readVersion, h]⟩
  | none => exact Or.inr ⟨rfl, by simp [readVersion, h]⟩

/- ### Claim C2 (counterexample) -/

/-- Counterexample to claim C2 as stated: for the empty metadata record
the built header is `---\n---\n`, which the frontmatter regular
expression cannot re-match (the closing delimiter line is not preceded by
a capturable `\n`), so the round trip returns the whole string instead of
the body — for a body (`"x"`) that does not start with the delimiter
sequence. -/
theorem roundtrip_fails_on_empty_meta :
    stripFrontmatter (buildFrontmatter emptyMeta ++ toL "x") ≠ toL "x" := by decide

/- ### Claim C6 (the failing path-escape input, evaluated) -/

/-- Claim C6 evaluated at its failing input: the id
`"../documents-evil/x.md"` ends in `.md`, resolves to
`/app/data/documents-evil/x.md` — a path *outside* the managed documents
directory — and yet passes the route guard, so the route performs
filesystem access outside the sandbox instead of failing with
InvalidArgument.  The guard
`safePath.startsWith(path.resolve(DOCUMENTS_DIR))` lacks a trailing
path-separator check, so any sibling directory whose name extends
`documents` is accepted. -/
theorem path_guard_escape_evaluated :
    docTargetPath (toL "../documents-evil/x.md")
        = some (toL "/app/data/documents-evil/x.md")
    ∧ insideDocsDir (toL "/app/data/documents-evil/x.md") = false
    ∧ docTargetPath (toL "../../etc/passwd") = none := by
  refine ⟨by decide, by decide, by decide⟩

/- ### Claim C8 -/

theorem touchIndex_fst_versions (st : FState) (f now : Chars) :
    (touchIndex st f now).1.versions = st.versions := by
  simp only [touchIndex]
  split <;> rfl

theorem touchIndex_fst_files (st : FState) (f now : Chars) :
    (touchIndex st f now).1.files = st.files := by
  simp only [touchIndex]
  split <;> rfl

theorem verList_insertVersion_self (vers : List (Chars × List (Chars × Chars)))
    (doc vf c : Chars) :
    (lookupA (insertVersion vers doc vf c) doc).getD []
      = insertA ((lookupA vers doc).getD []) vf c := by
  unfold insertVersion
  rw [lookupA_insertA_self]
  rfl

/-- The snapshot map of a document after any snapshot-creating operation
agrees with the old one on every snapshot filename other than the one the
operation itself writes. -/
theorem runSnapOp_preserves_other_snapshots (st : FState) (doc : Chars) (op : SnapOp)
    (ts now vf' : Chars) (hvf : vf' ≠ ts ++ mdExt) :
    lookupA (verList (runSnapOp st doc op ts now) doc) vf'
      = lookupA (verList st doc) vf' := by
  cases op with
  | write c e =>
    show lookupA (verList (putDocument st doc c e ts now).st doc) vf' = _
    unfold putDocument
    split
    · rfl
    · cases hf : lookupA st.files doc with
      | some existingRaw =>
        simp only [hf]
        show lookupA (verList (touchIndex _ doc now).1 doc) vf' = _
        unfold verList
        rw [touchIndex_fst_versions]
        show lookupA ((lookupA (insertVersion st.versions doc (ts ++ mdExt) existingRaw) doc).getD []) vf' = _
        rw [verList_insertVersion_self]
        exact lookupA_insertA_ne _ _ _ _ (fun h => hvf h.symm)
      | none =>
        simp only [hf]
        show lookupA (verList (touchIndex _ doc now).1 doc) vf' = _
        unfold verList
        rw [touchIndex_fst_versions]
  | restore vfile =>
    show lookupA (verList (restoreVersion st doc vfile ts now).st doc) vf' = _
    unfold restoreVersion
    cases hf : lookupA st.files doc with
    | none => simp only [hf]
    | some currentRaw =>
      simp only [hf]
      cases hv : lookupA (verList { st with versions := insertVersion st.versions doc (ts ++ mdExt) currentRaw } doc) vfile with
      | none =>
        simp only [hv]
        show lookupA ((lookupA (insertVersion st.versions doc (ts ++ mdExt) currentRaw) doc).getD []) vf' = _
        rw [verList_insertVersion_self]
        exact lookupA_insertA_ne _ _ _ _ (fun h => hvf h.symm)
      | some vraw =>
        simp only [hv]
        show lookupA (verList (touchIndex _ doc now).1 doc) vf' = _
        unfold verList
        rw [touchIndex_fst_versions]
        show lookupA ((lookupA (insertVersion st.versions doc (ts ++ mdExt) currentRaw) doc).getD []) vf' = _
        rw [verList_insertVersion_self]
        exact lookupA_insertA_ne _ _ _ _ (fun h => hvf h.symm)

/-- Counterexample to claim C8 as stated: two writes whose instants
render to the same millisecond timestamp produce the same snapshot
filename, and the later write silently overwrites the snapshot content
stored by the earlier one (the snapshot file name
`${new Date().toISOString().replace(/[:.]/g,'-')}.md` has only
millisecond precision, and `fs.writeFile` replaces an existing file). -/
theorem snapshot_collision_overwrites :
    (let st0 : FState := ⟨[(toL "doc.md", toL "A")], none, []⟩
     let ts := toL "2026-01-01T00-00-00-000Z"
     let st1 := (putDocument st0 (toL "doc.md") (toL "B") (toL "U") ts (toL "t1")).st
     let st2 := (putDocument st1 (toL "doc.md") (toL "C") (toL "U") ts (toL "t2")).st
     lookupA (verList st1 (toL "doc.md")) (ts ++ mdExt) = some (toL "A")
       ∧ lookupA (verList st2 (toL "doc.md")) (ts ++ mdExt) ≠ some (toL "A")) := by
  decide

/-- Claim C8 (amended): snapshots are immutable and their timestamp
identifiers distinct, provided the two snapshot-creating operations'
rendered millisecond timestamps differ.  In any state whose version store
holds a snapshot `ts₁.md` with content `raw₀` (as left by the earlier
write or restore), a later write or restore performed at an instant
rendering to `ts₂ ≠ ts₁` neither overwrites nor alters it: the snapshot's
stored bytes read back unchanged, and the two snapshot identifiers are
distinct. -/
theorem snapshot_immutable_distinct_instants (st : FState) (doc : Chars) (op : SnapOp)
    (ts₁ ts₂ now raw₀ : Chars) (hne : ts₁ ≠ ts₂)
    (hsnap : lookupA (verList st doc) (ts₁ ++ mdExt) = some raw₀) :
    lookupA (verList (runSnapOp st doc op ts₂ now) doc) (ts₁ ++ mdExt) = some raw₀
      ∧ ts₁ ++ mdExt ≠ ts₂ ++ mdExt := by
  have hid : ts₁ ++ mdExt ≠ ts₂ ++ mdExt := fun h => hne (List.append_cancel_right h)
  exact ⟨(runSnapOp_preserves_other_snapshots st doc op ts₂ now _ hid).trans hsnap, hid⟩

/-- Witness for the amended claim C8 at a concrete input: a second write
one millisecond later preserves the first write's snapshot exactly. -/
theorem snapshot_immutable_distinct_instants_witness :
    (toL "2026-01-01T00-00-00-000Z" ≠ toL "2026-01-01T00-00-00-001Z")
    ∧ (lookupA
        (verList
          ((putDocument ⟨[(toL "doc.md", toL "A")], none, []⟩ (toL "doc.md") (toL "B")
            (toL "U") (toL "2026-01-01T00-00-00-000Z") (toL "t1")).st)
          (toL "doc.md"))
        (toL "2026-01-01T00-00-00-000Z" ++ mdExt) = some (toL "A"))
    ∧ (lookupA
        (verList
          (runSnapOp
            ((putDocument ⟨[(toL "doc.md", toL "A")], none, []⟩ (toL "doc.md") (toL "B")
              (toL "U") (toL "2026-01-01T00-00-00-000Z") (toL "t1")).st)
            (toL "doc.md") (.write (toL "C") (toL "U"))
            (toL "2026-01-01T00-00-00-001Z") (toL "t2"))
          (toL "doc.md"))
        (toL "2026-01-01T00-00-00-000Z" ++ mdExt) = some (toL "A")
      ∧ toL "2026-01-01T00-00-00-000Z" ++ mdExt ≠ toL "2026-01-01T00-00-00-001Z" ++ mdExt) := by
  refine ⟨by decide, by decide, ?_⟩
  exact snapshot_immutable_distinct_instants _ _ _ _ _ _ _ (by decide) (by decide)

/- ### Claim C2 (amended round trip) -/

theorem matchEnd_nl (r : Chars) : matchEnd ('\n' :: r) = some r := by
  simp [matchEnd]

theorem matchEnd_none_of_other (c : Char) (r : Chars) (h1 : c ≠ '\n') (h2 : c ≠ '\r') :
    matchEnd (c :: r) = none := by
  simp [matchEnd, h1, h2]

theorem matchEnd_cr_none (r : Chars) (h : r.head? ≠ some '\n') :
    matchEnd ('\r' :: r) = none := by
  cases r with
  | nil => simp [matchEnd]
  | cons d r2 =>
    have hd : d ≠ '\n' := fun hd => h (by simp [hd])
    simp [matchEnd, hd]

theorem matchClose_none_of_matchEnd (s : Chars) (h : matchEnd s = none) :
    matchClose s = none := by
  simp [matchClose, h]

theorem matchClose_nl_none (rest : Chars) (h : rest.head? ≠ some '-') :
    matchClose ('\n' :: rest) = none := by
  cases rest with
  | nil => rfl
  | cons d1 r1 =>
    cases r1 with
    | nil => rfl
    | cons d2 r2 =>
      cases r2 with
      | nil => rfl
      | cons d3 r3 =>
        have hd : d1 ≠ '-' := fun hd => h (by simp [hd])
        simp [matchClose, matchEnd_nl, hd]

theorem getLast?_cons_of_ne_nil {α : Type} {c : α} {cs : List α} (h : cs ≠ []) :
    (c :: cs).getLast? = cs.getLast? := by
  cases cs with
  | nil => exact absurd rfl h
  | cons d ds => simp [List.getLast?]

/-- Scanning a line that contains no `\n` and does not end in `\r` never
matches the closing delimiter, so the non-greedy search passes over it. -/
theorem findClose_skip (l tail : Chars) (h1 : '\n' ∉ l) (h2 : l.getLast? ≠ some '\r') :
    findClose (l ++ tail) = (findClose tail).map fun p => (l ++ p.1, p.2) := by
  induction l with
  | nil =>
    cases o : findClose tail with
    | none => simp [o]
    | some p => simp [o]
  | cons c cs ih =>
    have hc : c ≠ '\n' := fun hc => h1 (by simp [hc])
    have hmc : matchClose (c :: (cs ++ tail)) = none := by
      by_cases hcr : c = '\r'
      · subst hcr
        apply matchClose_none_of_matchEnd
        apply matchEnd_cr_none
        cases cs with
        | nil => exact (h2 rfl).elim
        | cons d ds =>
          have hd : d ≠ '\n' := fun hd => h1 (by simp [hd])
          simpa using hd
      · exact matchClose_none_of_matchEnd _ (matchEnd_none_of_other c _ hc hcr)
    have h1' : '\n' ∉ cs := fun hm => h1 (List.mem_cons_of_mem _ hm)
    have h2' : cs.getLast? ≠ some '\r' := by
      cases hcs : cs with
      | nil => simp
      | cons d ds =>
        rw [hcs] at h2
        rwa [getLast?_cons_of_ne_nil (by simp)] at h2
    show findClose (c :: (cs ++ tail)) = _
    rw [findClose, hmc, ih h1' h2']
    cases o : findClose tail with
    | none => simp
    | some p => simp

/-- The closing delimiter matches immediately. -/
theorem findClose_closing (body : Chars) :
    findClose ('\n' :: '-' :: '-' :: '-' :: '\n' :: body) = some ([], body) := by
  rfl

theorem head?_append_ne_dash (l t : Chars) (hl : l.head? ≠ some '-')
    (ht : t.head? ≠ some '-') : (l ++ t).head? ≠ some '-' := by
  cases l with
  | nil => simpa using ht
  | cons c cs => simpa using hl

theorem head?_joinOn_ne_dash (F : List Chars) (h : ∀ l ∈ F, l.head? ≠ some '-') :
    (joinOn '\n' F).head? ≠ some '-' := by
  cases F with
  | nil => simp [joinOn]
  | cons l F' =>
    cases F' with
    | nil => exact h l (by simp)
    | cons l2 F'' =>
      show (l ++ '\n' :: joinOn '\n' (l2 :: F'')).head? ≠ some '-'
      exact head?_append_ne_dash _ _ (h l (by simp)) (by simp)

/-- The non-greedy search over a block of joined good lines finds exactly
the closing delimiter that follows the block: a good line contains no
`\n`, does not end in `\r`, and does not start with `-`. -/
theorem findClose_join (F : List Chars) (body : Chars)
    (hF : ∀ l ∈ F, '\n' ∉ l ∧ l.getLast? ≠ some '\r' ∧ l.head? ≠ some '-') :
    findClose (joinOn '\n' F ++ '\n' :: '-' :: '-' :: '-' :: '\n' :: body)
      = some (joinOn '\n' F, body) := by
  induction F with
  | nil => exact findClose_closing body
  | cons l F' ih =>
    obtain ⟨hl1, hl2, _⟩ := hF l (by simp)
    cases F' with
    | nil =>
      show findClose (l ++ '\n' :: '-' :: '-' :: '-' :: '\n' :: body) = some (l, body)
      rw [findClose_skip _ _ hl1 hl2, findClose_closing]
      simp
    | cons l2 F'' =>
      have hF' : ∀ x ∈ l2 :: F'', '\n' ∉ x ∧ x.getLast? ≠ some '\r' ∧ x.head? ≠ some '-' :=
        fun x hx => hF x (List.mem_cons_of_mem _ hx)
      show findClose (l ++ '\n' :: joinOn '\n' (l2 :: F'')
          ++ '\n' :: '-' :: '-' :: '-' :: '\n' :: body) = _
      have hassoc :
          l ++ '\n' :: joinOn '\n' (l2 :: F'') ++ '\n' :: '-' :: '-' :: '-' :: '\n' :: body
            = l ++ '\n' :: (joinOn '\n' (l2 :: F'')
                ++ '\n' :: '-' :: '-' :: '-' :: '\n' :: body) := by
        simp
      rw [hassoc, findClose_skip _ _ hl1 hl2]
      have hrest :
          findClose ('\n' :: (joinOn '\n' (l2 :: F'')
              ++ '\n' :: '-' :: '-' :: '-' :: '\n' :: body))
            = some ('\n' :: joinOn '\n' (l2 :: F''), body) := by
        have hhead : (joinOn '\n' (l2 :: F'')
            ++ '\n' :: '-' :: '-' :: '-' :: '\n' :: body).head? ≠ some '-' := by
          apply head?_append_ne_dash
          · exact head?_joinOn_ne_dash _ fun x hx => (hF' x hx).2.2
          · simp
        rw [findClose, matchClose_nl_none _ hhead, ih hF']
        rfl
      rw [hrest]
      rfl

theorem joinOn_cons_ne (sep : Char) (x : Chars) (L : List Chars) (h : L ≠ []) :
    joinOn sep (x :: L) = x ++ sep :: joinOn sep L := by
  cases L with
  | nil => exact absurd rfl h
  | cons y L' => rfl

theorem joinOn_concat_ne (sep : Char) (y : Chars) (L : List Chars) (h : L ≠ []) :
    joinOn sep (L ++ [y]) = joinOn sep L ++ sep :: y := by
  induction L with
  | nil => exact absurd rfl h
  | cons x L' ih =>
    cases L' with
    | nil => rfl
    | cons z L'' =>
      show joinOn sep (x :: ((z :: L'') ++ [y])) = _
      rw [joinOn_cons_ne _ _ _ (by simp), ih (by simp),
        joinOn_cons_ne sep x (z :: L'') (by simp)]
      simp

theorem mem_ite_singleton {P : Prop} [Decidable P] {x l : Chars}
    (h : l ∈ (if P then [x] else [])) : l = x := by
  by_cases hp : P
  · simpa [hp] using h
  · simp [hp] at h

/-- Every line `buildFrontmatter` emits for a metadata record whose
values contain no newline is safe for the non-greedy scan: it has no
`\n`, ends in the closing quote, and starts with its key's first letter. -/
theorem fieldLines_good (m : Meta)
    (ht : '\n' ∉ m.title) (he : '\n' ∉ m.emoji) (hc : '\n' ∉ m.category)
    (hl : '\n' ∉ m.last_edited_by) :
    ∀ l ∈ fieldLines m, '\n' ∉ l ∧ l.getLast? ≠ some '\r' ∧ l.head? ≠ some '-' := by
  intro l hmem
  rw [fieldLines] at hmem
  rcases List.mem_append.1 hmem with hmem' | hd
  · rcases List.mem_append.1 hmem' with hmem'' | hcat
    · rcases List.mem_append.1 hmem'' with hti | hem
      · rw [mem_ite_singleton hti]
        refine ⟨?_, ?_, ?_⟩
        · simp only [List.append_assoc, List.mem_append]
          rintro (hx | hx | hx)
          · revert hx; decide
          · exact ht hx
          · revert hx; simp
        · rw [show toL "title: \"" ++ m.title ++ ['"']
              = (toL "title: \"" ++ m.title) ++ ['"'] by simp,
            List.getLast?_concat]
          decide
        · intro hx
          rw [show toL "title: \"" ++ m.title ++ ['"']
              = 't' :: (toL "itle: \"" ++ m.title ++ ['"']) from rfl] at hx
          simp at hx
      · rw [mem_ite_singleton hem]
        refine ⟨?_, ?_, ?_⟩
        · simp only [List.append_assoc, List.mem_append]
          rintro (hx | hx | hx)
          · revert hx; decide
          · exact he hx
          · revert hx; simp
        · rw [show toL "emoji: \"" ++ m.emoji ++ ['"']
              = (toL "emoji: \"" ++ m.emoji) ++ ['"'] by simp,
            List.getLast?_concat]
          decide
        · intro hx
          rw [show toL "emoji: \"" ++ m.emoji ++ ['"']
              = 'e' :: (toL "moji: \"" ++ m.emoji ++ ['"']) from rfl] at hx
          simp at hx
    · rw [mem_ite_singleton hcat]
      refine ⟨?_, ?_, ?_⟩
      · simp only [List.append_assoc, List.mem_append]
        rintro (hx | hx | hx)
        · revert hx; decide
        · exact hc hx
        · revert hx; simp
      · rw [show toL "category: \"" ++ m.category ++ ['"']
            = (toL "category: \"" ++ m.category) ++ ['"'] by simp,
          List.getLast?_concat]
        decide
      · intro hx
        rw [show toL "category: \"" ++ m.category ++ ['"']
            = 'c' :: (toL "ategory: \"" ++ m.category ++ ['"']) from rfl] at hx
        simp at hx
  · rw [mem_ite_singleton hd]
    refine ⟨?_, ?_, ?_⟩
    · simp only [List.append_assoc, List.mem_append]
      rintro (hx | hx | hx)
      · revert hx; decide
      · exact hl hx
      · revert hx; simp
    · rw [show toL "last_edited_by: \"" ++ m.last_edited_by ++ ['"']
          = (toL "last_edited_by: \"" ++ m.last_edited_by) ++ ['"'] by simp,
        List.getLast?_concat]
      decide
    · intro hx
      rw [show toL "last_edited_by: \"" ++ m.last_edited_by ++ ['"']
          = 'l' :: (toL "ast_edited_by: \"" ++ m.last_edited_by ++ ['"']) from rfl] at hx
      simp at hx

theorem fieldLines_ne_nil (m : Meta)
    (hne : m.title ≠ [] ∨ m.emoji ≠ [] ∨ m.category ≠ [] ∨ m.last_edited_by ≠ []) :
    fieldLines m ≠ [] := by
  intro hcontra
  rw [fieldLines] at hcontra
  rcases List.append_eq_nil.1 hcontra with ⟨h123, h4⟩
  rcases List.append_eq_nil.1 h123 with ⟨h12, h3⟩
  rcases List.append_eq_nil.1 h12 with ⟨h1, h2⟩
  rcases hne with h | h | h | h
  · rw [if_pos h] at h1; simp at h1
  · rw [if_pos h] at h2; simp at h2
  · rw [if_pos h] at h3; simp at h3
  · rw [if_pos h] at h4; simp at h4

/-- Claim C2 (amended): for every metadata record with at least one
truthy field whose values contain no newline character, and every body
not itself beginning with the frontmatter delimiter sequence,
`strip(build(meta) + body) = body` exactly.  (The empty-record
counterexample above forces the at-least-one-field condition; a value
containing a newline would let the non-greedy close match inside the
header, forcing the newline-freedom condition.) -/
theorem frontmatter_roundtrip (m : Meta) (body : Chars)
    (hne : m.title ≠ [] ∨ m.emoji ≠ [] ∨ m.category ≠ [] ∨ m.last_edited_by ≠ [])
    (ht : '\n' ∉ m.title) (he : '\n' ∉ m.emoji) (hc : '\n' ∉ m.category)
    (hl : '\n' ∉ m.last_edited_by)
    (hbody : ¬ toL "---" <+: body) :
    stripFrontmatter (buildFrontmatter m ++ body) = body := by
  have hF : fieldLines m ≠ [] := fieldLines_ne_nil m hne
  have hgood := fieldLines_good m ht he hc hl
  have key : buildFrontmatter m ++ body
      = '-' :: '-' :: '-' :: '\n' ::
          (joinOn '\n' (fieldLines m) ++ '\n' :: '-' :: '-' :: '-' :: '\n' :: body) := by
    rw [buildFrontmatter]
    rw [show ([toL "---"] ++ fieldLines m ++ [toL "---"])
        = toL "---" :: (fieldLines m ++ [toL "---"]) by simp]
    rw [joinOn_cons_ne _ _ _ (by simp), joinOn_concat_ne _ _ _ hF]
    rw [show toL "---" = ['-', '-', '-'] from rfl]
    simp
  rw [stripFrontmatter, key]
  have hclose := findClose_join (fieldLines m) body hgood
  show (parseFrontmatter _).2 = body
  rw [parseFrontmatter]
  rw [matchEnd_nl]
  simp only [hclose]

/-- Witness for the amended claim C2 at a concrete input. -/
theorem frontmatter_roundtrip_witness :
    (let m : Meta := { title := toL "T", emoji := [], category := [],
                       last_edited_by := toL "User" }
     (m.title ≠ [] ∨ m.emoji ≠ [] ∨ m.category ≠ [] ∨ m.last_edited_by ≠ [])
       ∧ '\n' ∉ m.title ∧ '\n' ∉ m.emoji ∧ '\n' ∉ m.category ∧ '\n' ∉ m.last_edited_by
       ∧ ¬ toL "---" <+: toL "hello world"
       ∧ stripFrontmatter (buildFrontmatter m ++ toL "hello world") = toL "hello world") := by
  refine ⟨by decide, by decide, by decide, by decide, by decide, by decide, ?_⟩
  exact frontmatter_roundtrip _ _ (by decide) (by decide) (by decide) (by decide)
    (by decide) (by decide)

/- ### Claims C3, C5, C7: sync engine lemmas -/

theorem inferEntry_filename (f : Chars) (raw? : Option Chars) (now : Chars) :
    (inferEntry f raw? now).filename = f := by
  cases raw? <;> rfl

theorem foldl_add_mono (st : FState) (now : Chars) (indexed : List Chars)
    (l : List Chars) (acc : List IndexEntry) (x : IndexEntry) (hx : x ∈ acc) :
    x ∈ l.foldl (syncAddStep st now indexed) acc := by
  induction l generalizing acc with
  | nil => exact hx
  | cons g l' ih =>
    show x ∈ l'.foldl _ (syncAddStep st now indexed acc g)
    apply ih
    unfold syncAddStep
    split
    · exact hx
    · exact List.mem_cons_of_mem _ hx

theorem foldl_add_adds (st : FState) (now : Chars) (indexed : List Chars)
    (l : List Chars) (acc : List IndexEntry) (f : Chars) (hf : f ∈ l) (hni : f ∉ indexed) :
    inferEntry f (lookupA st.files f) now ∈ l.foldl (syncAddStep st now indexed) acc := by
  induction l generalizing acc with
  | nil => simp at hf
  | cons g l' ih =>
    show _ ∈ l'.foldl _ (syncAddStep st now indexed acc g)
    rcases List.mem_cons.1 hf with hg | hf'
    · subst hg
      apply foldl_add_mono
      unfold syncAddStep
      rw [if_neg hni]
      exact List.mem_cons_self _ _
    · exact ih _ hf'

theorem foldl_add_noop (st : FState) (now : Chars) (indexed : List Chars)
    (l : List Chars) (acc : List IndexEntry) (h : ∀ f ∈ l, f ∈ indexed) :
    l.foldl (syncAddStep st now indexed) acc = acc := by
  induction l generalizing acc with
  | nil => rfl
  | cons g l' ih =>
    show l'.foldl _ (syncAddStep st now indexed acc g) = acc
    rw [show syncAddStep st now indexed acc g = acc from if_pos (h g (by simp))]
    exact ih _ fun f hf => h f (List.mem_cons_of_mem _ hf)

/-- The reconciled manifest covers exactly the on-disk document files. -/
theorem syncDocs2_mem_iff (st : FState) (now : Chars) (f : Chars) :
    (∃ e ∈ syncDocs2 st now, e.filename = f) ↔ f ∈ diskMd st := by
  constructor
  · rintro ⟨e, he, rfl⟩
    have := List.mem_filter.1 he
    exact of_decide_eq_true this.2
  · intro hdisk
    by_cases hi : f ∈ syncIndexed st
    · obtain ⟨e, he, hef⟩ := List.mem_map.1 hi
      refine ⟨e, List.mem_filter.2 ⟨foldl_add_mono _ _ _ _ _ _ he, ?_⟩, hef⟩
      rw [hef]
      exact decide_eq_true hdisk
    · refine ⟨inferEntry f (lookupA st.files f) now,
        List.mem_filter.2 ⟨foldl_add_adds _ _ _ _ _ _ hdisk hi, ?_⟩,
        inferEntry_filename _ _ _⟩
      rw [inferEntry_filename]
      exact decide_eq_true hdisk

theorem syncDocs2_subset_disk (st : FState) (now : Chars) :
    ∀ e ∈ syncDocs2 st now, e.filename ∈ diskMd st := by
  intro e he
  exact of_decide_eq_true (List.mem_filter.1 he).2

theorem sync_result_docs (st : FState) (now : Chars) :
    (syncDocumentsIndex st now).docs = syncDocs2 st now := by
  unfold syncDocumentsIndex
  split <;> rfl

theorem sync_result_files (st : FState) (now : Chars) :
    (syncDocumentsIndex st now).st.files = st.files := by
  unfold syncDocumentsIndex
  split <;> rfl

theorem sync_result_versions (st : FState) (now : Chars) :
    (syncDocumentsIndex st now).st.versions = st.versions := by
  unfold syncDocumentsIndex
  split <;> rfl

/-- When the run reports no change, the removal filter kept everything
and the addition loop added nothing, so both phases are identities. -/
theorem sync_no_change (st : FState) (now : Chars)
    (h : ¬ ((∃ f ∈ diskMd st, f ∉ syncIndexed st)
        ∨ (syncDocs2 st now).length ≠ (syncDocs1 st now).length)) :
    syncDocs2 st now = st.index.getD [] := by
  push_neg at h
  obtain ⟨hadd, hlen⟩ := h
  have h1 : syncDocs1 st now = st.index.getD [] :=
    foldl_add_noop _ _ _ _ _ hadd
  have h2 : syncDocs2 st now = syncDocs1 st now :=
    (List.filter_sublist _).eq_of_length hlen
  rw [h2, h1]

/-- The manifest state left on disk and the returned manifest agree. -/
theorem sync_persisted (st : FState) (now : Chars) :
    (syncDocumentsIndex st now).st.index.getD [] = syncDocs2 st now := by
  unfold syncDocumentsIndex
  split
  · rfl
  · next h => exact (sync_no_change st now h).symm

/-- Claim C3: after one reconciliation run the set of filenames in the
returned (and persisted) index equals exactly the set of `.md` document
files on disk — no index entry without a backing file, no on-disk
document file missing an index entry. -/
theorem sync_index_matches_disk (st : FState) (now : Chars) :
    (syncDocumentsIndex st now).st.index.getD [] = (syncDocumentsIndex st now).docs
    ∧ ∀ f, (∃ e ∈ (syncDocumentsIndex st now).docs, e.filename = f) ↔ f ∈ diskMd st := by
  rw [sync_result_docs, sync_persisted]
  exact ⟨rfl, syncDocs2_mem_iff st now⟩

/-- Claim C5: reconciliation is idempotent — a second run over an
unchanged filesystem performs no index write (its event trace is empty),
returns the identical manifest, and leaves the state exactly as the first
run left it. -/
theorem sync_idempotent (st : FState) (now₁ now₂ : Chars) :
    (syncDocumentsIndex (syncDocumentsIndex st now₁).st now₂).events = []
    ∧ (syncDocumentsIndex (syncDocumentsIndex st now₁).st now₂).docs
        = (syncDocumentsIndex st now₁).docs
    ∧ (syncDocumentsIndex (syncDocumentsIndex st now₁).st now₂).st
        = (syncDocumentsIndex st now₁).st := by
  set st₁ := (syncDocumentsIndex st now₁).st with hst₁
  have hfiles : st₁.files = st.files := sync_result_files st now₁
  have hdisk : diskMd st₁ = diskMd st := by unfold diskMd; rw [hfiles]
  have hidx : st₁.index.getD [] = syncDocs2 st now₁ := sync_persisted st now₁
  have hindexed : syncIndexed st₁ = (syncDocs2 st now₁).map (·.filename) := by
    unfold syncIndexed; rw [hidx]
  have hnoadd : ¬ ∃ f ∈ diskMd st₁, f ∉ syncIndexed st₁ := by
    rintro ⟨f, hf, hni⟩
    rw [hdisk] at hf
    obtain ⟨e, he, hef⟩ := (syncDocs2_mem_iff st now₁ f).2 hf
    exact hni (by rw [hindexed]; exact List.mem_map.2 ⟨e, he, hef⟩)
  have hdocs1 : syncDocs1 st₁ now₂ = syncDocs2 st now₁ := by
    unfold syncDocs1
    rw [foldl_add_noop]
    · exact hidx
    · intro f hf
      by_contra hni
      exact hnoadd ⟨f, hf, hni⟩
  have hdocs2 : syncDocs2 st₁ now₂ = syncDocs2 st now₁ := by
    unfold syncDocs2
    rw [hdocs1]
    apply List.filter_eq_self.2
    intro e he
    apply decide_eq_true
    rw [hdisk]
    exact syncDocs2_subset_disk st now₁ e he
  have hcond : ¬ ((∃ f ∈ diskMd st₁, f ∉ syncIndexed st₁)
      ∨ (syncDocs2 st₁ now₂).length ≠ (syncDocs1 st₁ now₂).length) := by
    rintro (h | h)
    · exact hnoadd h
    · rw [hdocs1, hdocs2] at h
      exact h rfl
  have hrun : syncDocumentsIndex st₁ now₂ = ⟨st₁, syncDocs2 st₁ now₂, []⟩ := by
    unfold syncDocumentsIndex
    rw [if_neg hcond]
  refine ⟨by rw [hrun], ?_, by rw [hrun]⟩
  rw [hrun, sync_result_docs st now₁]
  exact hdocs2

/- ### Claim C7 -/

/-- Counterexample to claim C7 as stated: for a discovered file whose
body's first non-blank line is not a heading but whose second line is a
top-level heading, the code synthesizes the filename-derived title
(`doc`), not the heading title (`Head`) the claim's rule ("the first
top-level heading line found in the body") selects — the code only
inspects the first non-blank line (lines 417-421). -/
theorem sync_title_ignores_later_heading :
    (let st : FState := ⟨[(toL "doc.md", toL "intro\n# Head\n")], none, []⟩
     (∃ e ∈ (syncDocumentsIndex st (toL "t")).docs,
        e.filename = toL "doc.md" ∧ e.title = toL "doc")
     ∧ claimTitleRule (toL "doc.md") (toL "intro\n# Head\n") = toL "Head"
     ∧ (toL "doc" : Chars) ≠ toL "Head") := by
  decide

theorem inferEntry_title_some (f raw now : Chars) :
    (inferEntry f (some raw) now).title = amendedTitleRule f raw := rfl

/-- Claim C7 (amended): for every on-disk `.md` file with no index entry,
the synthesized entry's title follows the code's rule: the frontmatter
title if present; else, when the first non-blank line of the body is a
top-level heading, that heading's text; else the filename with its first
`.md` occurrence removed and dashes replaced by spaces. -/
theorem sync_discovery_title_rule (st : FState) (now f raw : Chars)
    (hmd : mdExt.isSuffixOf f = true)
    (hraw : lookupA st.files f = some raw)
    (hnew : f ∉ syncIndexed st) :
    ∃ e ∈ (syncDocumentsIndex st now).docs,
      e.filename = f ∧ e.title = amendedTitleRule f raw := by
  have hdisk : f ∈ diskMd st := by
    unfold diskMd
    exact List.mem_filter.2 ⟨mem_keys_of_lookupA hraw, hmd⟩
  refine ⟨inferEntry f (lookupA st.files f) now, ?_, inferEntry_filename _ _ _, ?_⟩
  · rw [sync_result_docs]
    refine List.mem_filter.2 ⟨foldl_add_adds _ _ _ _ _ _ hdisk hnew, ?_⟩
    rw [inferEntry_filename]
    exact decide_eq_true hdisk
  · rw [hraw]
    exact inferEntry_title_some f raw now

/-- Witness for the amended claim C7 at a concrete input: a dropped file
`weekly-report.md` whose first non-blank line is `# Weekly Report` gets
that heading as its title. -/
theorem sync_discovery_title_rule_witness :
    (mdExt.isSuffixOf (toL "weekly-report.md") = true)
    ∧ (lookupA (FState.mk [(toL "weekly-report.md", toL "# Weekly Report\n\nBody.")] none []).files
        (toL "weekly-report.md") = some (toL "# Weekly Report\n\nBody."))
    ∧ (toL "weekly-report.md"
        ∉ syncIndexed (FState.mk [(toL "weekly-report.md", toL "# Weekly Report\n\nBody.")] none []))
    ∧ (∃ e ∈ (syncDocumentsIndex
          (FState.mk [(toL "weekly-report.md", toL "# Weekly Report\n\nBody.")] none [])
          (toL "t")).docs,
        e.filename = toL "weekly-report.md"
          ∧ e.title = amendedTitleRule (toL "weekly-report.md") (toL "# Weekly Report\n\nBody.")) := by
  refine ⟨by decide, by decide, by decide, ?_⟩
  exact sync_discovery_title_rule _ _ _ _ (by decide) (by decide) (by decide)

/- ### Claim C1: write path lemmas -/

theorem length_insertDesc (x : VersionDescriptor) (l : List VersionDescriptor) :
    (insertDesc x l).length = l.length + 1 := by
  induction l with
  | nil => rfl
  | cons h t ih =>
    unfold insertDesc
    split
    · rfl
    · simpa using ih

theorem length_sortDesc_aux (l : List VersionDescriptor) (acc : List VersionDescriptor) :
    (l.foldl (fun acc x => insertDesc x acc) acc).length = acc.length + l.length := by
  induction l generalizing acc with
  | nil => rfl
  | cons h t ih =>
    show (t.foldl _ (insertDesc h acc)).length = _
    rw [ih, length_insertDesc]
    simp only [List.length_cons]
    omega

theorem length_sortDesc (l : List VersionDescriptor) :
    (sortDesc l).length = l.length := by
  unfold sortDesc
  rw [length_sortDesc_aux]
  simp

theorem mem_insertDesc (x y : VersionDescriptor) (l : List VersionDescriptor) :
    y ∈ insertDesc x l ↔ y = x ∨ y ∈ l := by
  induction l with
  | nil => simp [insertDesc]
  | cons h t ih =>
    unfold insertDesc
    split
    · simp only [List.mem_cons]
    · simp only [List.mem_cons, ih]
      tauto

theorem mem_sortDesc_aux (y : VersionDescriptor) (l acc : List VersionDescriptor) :
    y ∈ l.foldl (fun acc x => insertDesc x acc) acc ↔ y ∈ acc ∨ y ∈ l := by
  induction l generalizing acc with
  | nil => simp
  | cons h t ih =>
    show y ∈ t.foldl _ (insertDesc h acc) ↔ _
    rw [ih, mem_insertDesc]
    simp only [List.mem_cons]
    tauto

theorem mem_sortDesc (y : VersionDescriptor) (l : List VersionDescriptor) :
    y ∈ sortDesc l ↔ y ∈ l := by
  unfold sortDesc
  rw [mem_sortDesc_aux]
  simp

theorem insertDesc_of_max (x : VersionDescriptor) (l : List VersionDescriptor)
    (h : ∀ y ∈ l, lexLt y.timestamp x.timestamp = true) :
    insertDesc x l = x :: l := by
  cases l with
  | nil => rfl
  | cons hd t =>
    unfold insertDesc
    rw [if_pos (h hd (by simp))]

/-- Appending a strictly-newest element and sorting puts it at the head. -/
theorem sortDesc_append_max (x : VersionDescriptor) (l : List VersionDescriptor)
    (h : ∀ y ∈ l, lexLt y.timestamp x.timestamp = true) :
    sortDesc (l ++ [x]) = x :: sortDesc l := by
  unfold sortDesc
  rw [List.foldl_append]
  show insertDesc x (l.foldl _ []) = _
  apply insertDesc_of_max
  intro y hy
  exact h y (by simpa using (mem_sortDesc_aux y l []).1 hy)

/-- Reduction of the write path on an existing document. -/
theorem putDocument_existing (st : FState) (fname newContent editedBy ts now prior : Chars)
    (hmd : mdExt.isSuffixOf fname = true)
    (hprior : lookupA st.files fname = some prior) :
    putDocument st fname newContent editedBy ts now
      = (let by' := if editedBy = [] then toL "OpenClaw" else editedBy
         let vf := ts ++ mdExt
         let st1 := { st with versions := insertVersion st.versions fname vf prior }
         let final := buildFrontmatter
             { (parseFrontmatter prior).1 with last_edited_by := by' } ++ newContent
         let st2 := { st1 with files := insertA st1.files fname final }
         let t := touchIndex st2 fname now
         ⟨t.1, .writeVersion fname vf prior :: .writeDoc fname final :: t.2, .ok ()⟩) := by
  unfold putDocument
  rw [if_neg (by simp [hmd])]
  simp only [hprior]

theorem lookupA_append_of_none {α : Type} (l m : List (Chars × α)) (k : Chars)
    (h : lookupA l k = none) : lookupA (l ++ m) k = lookupA m k := by
  induction l with
  | nil => rfl
  | cons p r ih =>
    obtain ⟨k₀, v₀⟩ := p
    by_cases h0 : k₀ = k
    · subst h0; simp [lookupA] at h
    · show lookupA ((k₀, v₀) :: (r ++ m)) k = _
      rw [show lookupA ((k₀, v₀) :: (r ++ m)) k = lookupA (r ++ m) k by simp [lookupA, h0]]
      apply ih
      simpa [lookupA, h0] using h

theorem mdExt_isSuffixOf_append (ts : Chars) : mdExt.isSuffixOf (ts ++ mdExt) = true :=
  List.isSuffixOf_iff_suffix.mpr (List.suffix_append ts mdExt)

/-- Counterexample to claim C1 as stated: a write whose instant renders
to millisecond timestamp `ts` on a document that already holds a snapshot
named `ts.md` (a same-millisecond collision, the case
`snapshot_collision_overwrites` shows is real) succeeds — yet
`listVersions` afterwards returns exactly as many entries as before, not
at least one more: the snapshot write replaces the existing file instead
of adding one. -/
theorem put_collision_no_new_version :
    (let st : FState := ⟨[(toL "doc.md", toL "A")], none,
        [(toL "doc.md", [(toL "2026-01-01T00-00-00-000Z.md", toL "old snap")])]⟩
     let ts := toL "2026-01-01T00-00-00-000Z"
     (putDocument st (toL "doc.md") (toL "B") (toL "U") ts (toL "t")).out = .ok ()
       ∧ (listVersions (putDocument st (toL "doc.md") (toL "B") (toL "U") ts (toL "t")).st
            (toL "doc.md")).length
          = (listVersions st (toL "doc.md")).length) := by
  decide

/-- Claim C1 (amended): a successful write on a document with prior
stored content first records the prior full content as a new snapshot and
only then overwrites the document file (the event trace begins with the
snapshot write, immediately followed by the document write); provided the
write's instant renders to a millisecond timestamp not already present in
the document's version store and sorting newer than every existing
snapshot's — both automatic under a monotone clock, and the first forced
by the collision counterexample above — the version listing afterwards
has exactly one more entry than before, its newest entry is the fresh
snapshot, and reading that snapshot returns the content that was current
immediately prior to the write (its body, exactly as `getContent`
returned it before the write).  The remaining hypotheses state that the
filename carries the `.md` extension and that the document existed with
content `prior`. -/
theorem put_snapshot_then_overwrite (st : FState)
    (fname newContent editedBy ts now prior : Chars)
    (hmd : mdExt.isSuffixOf fname = true)
    (hprior : lookupA st.files fname = some prior)
    (hfresh : lookupA (verList st fname) (ts ++ mdExt) = none)
    (hnewest : ∀ p ∈ verList st fname,
        lexLt (decodeTs p.1) (decodeTs (ts ++ mdExt)) = true) :
    (∃ final rest,
        (putDocument st fname newContent editedBy ts now).events
          = .writeVersion fname (ts ++ mdExt) prior :: .writeDoc fname final :: rest)
    ∧ (putDocument st fname newContent editedBy ts now).out = .ok ()
    ∧ (listVersions (putDocument st fname newContent editedBy ts now).st fname).length
        = (listVersions st fname).length + 1
    ∧ (∃ v, (listVersions (putDocument st fname newContent editedBy ts now).st fname).head?
          = some v
        ∧ v.file = ts ++ mdExt
        ∧ readVersion (putDocument st fname newContent editedBy ts now).st fname v.file
            = .ok (stripFrontmatter prior)
        ∧ getDocument st fname = .ok (stripFrontmatter prior)) := by
  simp only [putDocument_existing st fname newContent editedBy ts now prior hmd hprior]
  have hverlist :
      verList (touchIndex { st with
          versions := insertVersion st.versions fname (ts ++ mdExt) prior
          files := insertA st.files fname
            (buildFrontmatter { (parseFrontmatter prior).1 with
              last_edited_by := if editedBy = [] then toL "OpenClaw" else editedBy }
              ++ newContent) } fname now).1 fname
        = verList st fname ++ [(ts ++ mdExt, prior)] := by
    unfold verList
    rw [touchIndex_fst_versions]
    show (lookupA (insertVersion st.versions fname (ts ++ mdExt) prior) fname).getD [] = _
    rw [verList_insertVersion_self]
    exact insertA_of_fresh _ _ _ hfresh
  refine ⟨⟨_, _, rfl⟩, trivial, ?_, ?_⟩
  all_goals
    simp only [listVersions, hverlist, List.filter_append, List.map_append]
  · rw [show List.filter (fun p => mdExt.isSuffixOf p.1) [(ts ++ mdExt, prior)]
        = [(ts ++ mdExt, prior)] by simp [mdExt_isSuffixOf_append]]
    rw [List.map_singleton]
    rw [sortDesc_append_max]
    · simp only [List.length_cons, length_sortDesc, List.length_map]
    · rintro y hy
      obtain ⟨q, hq, rfl⟩ := List.mem_map.1 hy
      exact hnewest q (List.mem_of_mem_filter hq)
  · rw [show List.filter (fun p => mdExt.isSuffixOf p.1) [(ts ++ mdExt, prior)]
        = [(ts ++ mdExt, prior)] by simp [mdExt_isSuffixOf_append]]
    rw [List.map_singleton]
    rw [sortDesc_append_max]
    · refine ⟨mkDescriptor (ts ++ mdExt, prior), rfl, rfl, ?_, ?_⟩
      · show readVersion _ fname (ts ++ mdExt) = _
        unfold readVersion
        rw [hverlist, lookupA_append_of_none _ _ _ hfresh]
        simp [lookupA]
      · simp [getDocument, hmd, hprior]
    · rintro y hy
      obtain ⟨q, hq, rfl⟩ := List.mem_map.1 hy
      exact hnewest q (List.mem_of_mem_filter hq)

/-- Witness for claim C1 at a concrete input: a document with one older
snapshot receives a write; the snapshot-then-overwrite trace, the +1
version count, and the newest-version read-back are all discharged by the
theorem at this input. -/
theorem put_snapshot_then_overwrite_witness :
    (mdExt.isSuffixOf (toL "doc.md") = true)
    ∧ (lookupA (FState.mk [(toL "doc.md", toL "---\ntitle: \"T\"\n---\nold body")] none
          [(toL "doc.md", [(toL "2026-01-01T00-00-00-000Z.md", toL "v0")])]).files
        (toL "doc.md") = some (toL "---\ntitle: \"T\"\n---\nold body"))
    ∧ (lookupA (verList (FState.mk [(toL "doc.md", toL "---\ntitle: \"T\"\n---\nold body")] none
          [(toL "doc.md", [(toL "2026-01-01T00-00-00-000Z.md", toL "v0")])]) (toL "doc.md"))
        (toL "2026-01-02T00-00-00-000Z" ++ mdExt) = none)
    ∧ (∀ p ∈ verList (FState.mk [(toL "doc.md", toL "---\ntitle: \"T\"\n---\nold body")] none
          [(toL "doc.md", [(toL "2026-01-01T00-00-00-000Z.md", toL "v0")])]) (toL "doc.md"),
        lexLt (decodeTs p.1) (decodeTs (toL "2026-01-02T00-00-00-000Z" ++ mdExt)) = true)
    ∧ ((∃ final rest,
          (putDocument (FState.mk [(toL "doc.md", toL "---\ntitle: \"T\"\n---\nold body")] none
              [(toL "doc.md", [(toL "2026-01-01T00-00-00-000Z.md", toL "v0")])])
            (toL "doc.md") (toL "new body") (toL "User")
            (toL "2026-01-02T00-00-00-000Z") (toL "t")).events
            = .writeVersion (toL "doc.md") (toL "2026-01-02T00-00-00-000Z" ++ mdExt)
                (toL "---\ntitle: \"T\"\n---\nold body")
              :: .writeDoc (toL "doc.md") final :: rest)
      ∧ (putDocument (FState.mk [(toL "doc.md", toL "---\ntitle: \"T\"\n---\nold body")] none
            [(toL "doc.md", [(toL "2026-01-01T00-00-00-000Z.md", toL "v0")])])
          (toL "doc.md") (toL "new body") (toL "User")
          (toL "2026-01-02T00-00-00-000Z") (toL "t")).out = .ok ()
      ∧ (listVersions (putDocument (FState.mk
            [(toL "doc.md", toL "---\ntitle: \"T\"\n---\nold body")] none
            [(toL "doc.md", [(toL "2026-01-01T00-00-00-000Z.md", toL "v0")])])
          (toL "doc.md") (toL "new body") (toL "User")
          (toL "2026-01-02T00-00-00-000Z") (toL "t")).st (toL "doc.md")).length
          = (listVersions (FState.mk [(toL "doc.md", toL "---\ntitle: \"T\"\n---\nold body")] none
              [(toL "doc.md", [(toL "2026-01-01T00-00-00-000Z.md", toL "v0")])])
              (toL "doc.md")).length + 1
      ∧ (∃ v, (listVersions (putDocument (FState.mk
              [(toL "doc.md", toL "---\ntitle: \"T\"\n---\nold body")] none
              [(toL "doc.md", [(toL "2026-01-01T00-00-00-000Z.md", toL "v0")])])
            (toL "doc.md") (toL "new body") (toL "User")
            (toL "2026-01-02T00-00-00-000Z") (toL "t")).st (toL "doc.md")).head? = some v
          ∧ v.file = toL "2026-01-02T00-00-00-000Z" ++ mdExt
          ∧ readVersion (putDocument (FState.mk
                [(toL "doc.md", toL "---\ntitle: \"T\"\n---\nold body")] none
                [(toL "doc.md", [(toL "2026-01-01T00-00-00-000Z.md", toL "v0")])])
              (toL "doc.md") (toL "new body") (toL "User")
              (toL "2026-01-02T00-00-00-000Z") (toL "t")).st (toL "doc.md") v.file
              = .ok (stripFrontmatter (toL "---\ntitle: \"T\"\n---\nold body"))
          ∧ getDocument (FState.mk [(toL "doc.md", toL "---\ntitle: \"T\"\n---\nold body")] none
                [(toL "doc.md", [(toL "2026-01-01T00-00-00-000Z.md", toL "v0")])])
              (toL "doc.md")
              = .ok (stripFrontmatter (toL "---\ntitle: \"T\"\n---\nold body")))) := by
  refine ⟨by decide, by decide, by decide, by decide, ?_⟩
  exact put_snapshot_then_overwrite _ _ _ _ _ _ _ (by decide) (by decide) (by decide) (by decide)


/- ### Claim C10: path lemmas -/

theorem splitOnChar_cons (sep c : Char) (r : Chars) :
    splitOnChar sep (c :: r)
      = if c = sep then [] :: splitOnChar sep r
        else
          match splitOnChar sep r with
          | [] => [[c]]
          | s :: ss => (c :: s) :: ss := rfl

theorem normStack_cons (stack : List Chars) (seg : Chars) (rest : List Chars) :
    normStack stack (seg :: rest)
      = if seg = [] ∨ seg = ['.'] then normStack stack rest
        else if seg = ['.', '.'] then normStack stack.dropLast rest
        else normStack (stack ++ [seg]) rest := rfl

theorem splitOnChar_ne_nil (sep : Char) (s : Chars) : splitOnChar sep s ≠ [] := by
  cases s with
  | nil => simp [splitOnChar]
  | cons c r =>
    rw [splitOnChar_cons]
    split
    · simp
    · cases h : splitOnChar sep r <;> simp

theorem no_sep_split (sep : Char) (r : Chars) (h : sep ∉ r) :
    splitOnChar sep r = [r] := by
  induction r with
  | nil => rfl
  | cons c r' ih =>
    have hc : c ≠ sep := fun hc => h (by simp [hc])
    have h' : sep ∉ r' := fun hm => h (List.mem_cons_of_mem _ hm)
    rw [splitOnChar_cons, if_neg hc, ih h']

theorem singleton_split (sep : Char) (r : Chars) (x : Chars)
    (h : splitOnChar sep r = [x]) : x = r := by
  induction r generalizing x with
  | nil => simpa [splitOnChar] using h.symm
  | cons c r' ih =>
    rw [splitOnChar_cons] at h
    by_cases hc : c = sep
    · rw [if_pos hc] at h
      injection h with h1 h2
      exact absurd h2 (splitOnChar_ne_nil sep r')
    · rw [if_neg hc] at h
      cases hs : splitOnChar sep r' with
      | nil => exact absurd hs (splitOnChar_ne_nil sep r')
      | cons s0 ss =>
        rw [hs] at h
        injection h with h1 h2
        subst h2
        rw [← h1, ih s0 hs]

theorem splitOnChar_append (sep : Char) (a b : Chars) :
    splitOnChar sep (a ++ sep :: b) = splitOnChar sep a ++ splitOnChar sep b := by
  induction a with
  | nil =>
    show splitOnChar sep (sep :: b) = _
    rw [splitOnChar_cons, if_pos rfl]
    rfl
  | cons c a' ih =>
    show splitOnChar sep (c :: (a' ++ sep :: b)) = _
    rw [splitOnChar_cons, splitOnChar_cons]
    by_cases hc : c = sep
    · rw [if_pos hc, if_pos hc, ih]
      rfl
    · rw [if_neg hc, if_neg hc, ih]
      cases hs : splitOnChar sep a' with
      | nil => exact absurd hs (splitOnChar_ne_nil sep a')
      | cons s0 ss => rfl

/-- Every string splits into a last segment: the part after the final
separator (or the whole string when it has none), which itself contains
no separator. -/
theorem splitOnChar_last (sep : Char) (s : Chars) :
    ∃ S, (splitOnChar sep s).getLast? = some S
      ∧ (S = s ∨ sep :: S <:+ s) ∧ sep ∉ S := by
  induction s with
  | nil => exact ⟨[], rfl, Or.inl rfl, by simp⟩
  | cons c r ih =>
    obtain ⟨S, hlast, hrel, hnos⟩ := ih
    by_cases hc : c = sep
    · subst hc
      refine ⟨S, ?_, Or.inr ?_, hnos⟩
      · rw [splitOnChar_cons, if_pos rfl,
          getLast?_cons_of_ne_nil (splitOnChar_ne_nil c r)]
        exact hlast
      · rcases hrel with rfl | hrel
        · exact List.suffix_refl _
        · exact List.suffix_cons_iff.mpr (Or.inr hrel)
    · rw [splitOnChar_cons, if_neg hc]
      cases hs : splitOnChar sep r with
      | nil => exact absurd hs (splitOnChar_ne_nil sep r)
      | cons s0 ss =>
        cases ss with
        | nil =>
          have hs0 : s0 = S := by
            rw [hs] at hlast
            simpa using hlast
          have hr : s0 = r := singleton_split sep r s0 hs
          refine ⟨c :: S, ?_, Or.inl ?_, ?_⟩
          · simp [hs0]
          · rw [← hs0, hr]
          · intro hm
            rcases List.mem_cons.1 hm with hm | hm
            · exact hc hm.symm
            · exact hnos hm
        | cons s1 ss' =>
          refine ⟨S, ?_, Or.inr ?_, hnos⟩
          · rw [getLast?_cons_of_ne_nil (by simp)]
            rw [hs] at hlast
            rwa [getLast?_cons_of_ne_nil (by simp)] at hlast
          · rcases hrel with rfl | hrel
            · exfalso
              rw [no_sep_split sep S hnos] at hs
              simp at hs
            · exact List.suffix_cons_iff.mpr (Or.inr hrel)

theorem suffix_or_suffix {α : Type} {l₁ l₂ l₃ : List α}
    (h₁ : l₁ <:+ l₃) (h₂ : l₂ <:+ l₃) : l₁ <:+ l₂ ∨ l₂ <:+ l₁ := by
  induction l₃ with
  | nil =>
    left
    rw [List.suffix_nil.mp h₁]
    exact List.nil_suffix
  | cons c t ih =>
    rcases List.suffix_cons_iff.mp h₁ with rfl | h₁'
    · right; exact h₂
    · rcases List.suffix_cons_iff.mp h₂ with rfl | h₂'
      · left; exact List.suffix_cons_iff.mpr (Or.inr h₁')
      · exact ih h₁' h₂'

theorem normStack_append (stack : List Chars) (l₁ l₂ : List Chars) :
    normStack stack (l₁ ++ l₂) = normStack (normStack stack l₁) l₂ := by
  induction l₁ generalizing stack with
  | nil => rfl
  | cons seg l₁' ih =>
    show normStack stack (seg :: (l₁' ++ l₂)) = _
    rw [normStack_cons, normStack_cons]
    by_cases h1 : seg = [] ∨ seg = ['.']
    · rw [if_pos h1, if_pos h1]
      exact ih _
    · by_cases h2 : seg = ['.', '.']
      · rw [if_neg h1, if_pos h2, if_neg h1, if_pos h2]
        exact ih _
      · rw [if_neg h1, if_neg h2, if_neg h1, if_neg h2]
        exact ih _

theorem normStack_push (stack : List Chars) (S : Chars)
    (h1 : ¬ (S = [] ∨ S = ['.'])) (h2 : S ≠ ['.', '.']) :
    normStack stack [S] = stack ++ [S] := by
  rw [normStack_cons, if_neg h1, if_neg h2]
  rfl

theorem last_suffix_renderAbs (l : List Chars) (S : Chars) :
    S <:+ renderAbs (l ++ [S]) := by
  unfold renderAbs
  cases l with
  | nil => exact List.suffix_cons_iff.mpr (Or.inr (List.suffix_refl _))
  | cons x l' =>
    rw [joinOn_concat_ne _ _ _ (by simp)]
    apply List.suffix_cons_iff.mpr
    right
    exact (List.suffix_cons_iff.mpr (Or.inr (List.suffix_refl _))).trans
      (List.suffix_append _ _)

/-- Any request filename ending in `.md` resolves to a path that itself
ends in `.md`: the final path segment carries the extension, is not a
dot-segment, and survives normalization as the resolved path's last
segment. -/
theorem md_suffix_resolveInDocs (filename : Chars)
    (h : mdExt.isSuffixOf filename = true) : mdExt <:+ resolveInDocs filename := by
  have hsuf : mdExt <:+ filename := List.isSuffixOf_iff_suffix.mp h
  obtain ⟨S, hlast, hrel, hnos⟩ := splitOnChar_last '/' filename
  have hmdS : mdExt <:+ S := by
    rcases hrel with rfl | hrel
    · exact hsuf
    · rcases suffix_or_suffix hsuf hrel with hx | hx
      · rcases List.suffix_cons_iff.mp hx with heq | hx'
        · rw [show mdExt = '.' :: 'm' :: 'd' :: [] from rfl] at heq
          injection heq with h1 _
          exact absurd h1 (by decide)
        · exact hx'
      · have hmem : '/' ∈ mdExt := hx.subset (List.mem_cons_self _ _)
        exact absurd hmem (by decide)
  have hlen : 3 ≤ S.length := by
    have := hmdS.length_le
    simpa using this
  have hS1 : ¬ (S = [] ∨ S = ['.']) := by
    rintro (rfl | rfl) <;> simp at hlen
  have hS2 : S ≠ ['.', '.'] := by
    rintro rfl
    simp at hlen
  have hsplitfn : splitOnChar '/' filename
      = (splitOnChar '/' filename).dropLast ++ [S] :=
    (List.dropLast_append_getLast? S (by rw [hlast]; rfl)).symm
  unfold resolveInDocs resolveAbs
  rw [splitOnChar_append, normStack_append, hsplitfn, normStack_append,
    normStack_push _ _ hS1 hS2]
  exact hmdS.trans (last_suffix_renderAbs _ _)

/-- Claim C10: the manifest is unreachable through the per-document
operation surface.  Every per-document route (`GET`/`PUT`/`DELETE`
`/api/documents/:filename`, `POST .../duplicate`) rejects any filename
not ending in `.md` before touching the filesystem (the target is `none`
for such inputs), and for every input whatsoever the path the route would
access is never the `documents-index.json` manifest: an accepted
filename's resolved path still ends in `.md`, which the manifest path
does not.  So the manifest can never be read as a document, overwritten
by a content write, or deleted via the document delete operation. -/
theorem manifest_unreachable_via_document_routes (filename : Chars) :
    docTargetPath filename ≠ some documentsIndexPath := by
  unfold docTargetPath
  split
  · simp
  · next hmd' =>
    split
    · intro hcontra
      have heq : resolveInDocs filename = documentsIndexPath := by
        simpa using hcontra
      have hmd : mdExt.isSuffixOf filename = true := by
        by_contra hx
        exact hmd' (by simpa using hx)
      have hres := md_suffix_resolveInDocs filename hmd
      rw [heq] at hres
      exact absurd hres (by decide)
    · simp

/-- Witness for claim C10 at a concrete input: the route target for
`doc.md` is not the manifest path. -/
theorem manifest_unreachable_witness :
    docTargetPath (toL "doc.md") ≠ some documentsIndexPath :=
  manifest_unreachable_via_document_routes (toL "doc.md")
